import Mathlib

/-!
Verification of the llmrouter request-dispatch core against its
natural-language specification.

The Python source is shallowly embedded: each stateful Python class becomes a
Lean state type with explicit state-passing operations, wall-clock time is an
explicit rational parameter, and fallible code returns `Except`/`Option`.
-/

namespace LLMRouter

/-! ## Circuit breaker (src/app/circuit_breaker.py)

`CircuitBreaker` is a dataclass holding a `CircuitState`, a failure counter and
an optional last-failure timestamp.  The three operations run under a lock; we
model them as pure state transformers taking the current time explicitly.
-/

inductive CircuitState where
  | closed
  | opened
  | halfOpen
deriving DecidableEq, Repr

structure CircuitBreakerConfig where
  failure_threshold : Nat
  recovery_time_seconds : ℚ
deriving DecidableEq, Repr

structure CBState where
  state : CircuitState
  failure_count : Nat
  last_failure : Option ℚ
deriving DecidableEq, Repr

/-- Initial breaker state: `CLOSED`, zero failures, no timestamp. -/
def initCB : CBState := ⟨CircuitState.closed, 0, none⟩

/-- Model of `CircuitBreaker.allow_request` (circuit_breaker.py lines 30-44): returns
the boolean decision and the (possibly updated) state. -/
def allow_request (cfg : CircuitBreakerConfig) (now : ℚ) (s : CBState) :
    Bool × CBState :=
  match s.state with
  | CircuitState.closed => (true, s)
  | CircuitState.opened =>
      match s.last_failure with
      | none => (false, s)
      | some t =>
          if cfg.recovery_time_seconds ≤ now - t then
            (true, { s with state := CircuitState.halfOpen })
          else
            (false, s)
  | CircuitState.halfOpen => (true, s)

/-- Model of `CircuitBreaker.record_success` (circuit_breaker.py lines 46-50). -/
def record_success (_s : CBState) : CBState :=
  ⟨CircuitState.closed, 0, none⟩

/-- Model of `CircuitBreaker.record_failure` (circuit_breaker.py lines 52-59). -/
def record_failure (cfg : CircuitBreakerConfig) (now : ℚ) (s : CBState) :
    CBState :=
  { state :=
      if cfg.failure_threshold ≤ s.failure_count + 1 then CircuitState.opened
      else CircuitState.closed
    failure_count := s.failure_count + 1
    last_failure := some now }

/-- A sequence of consecutive `record_failure` calls at the given times. -/
def applyFailures (cfg : CircuitBreakerConfig) (ts : List ℚ) (s : CBState) :
    CBState :=
  ts.foldl (fun s t => record_failure cfg t s) s

/-- States reachable from the initial breaker state by any interleaving of the
three public operations (at arbitrary times). -/
inductive Reachable (cfg : CircuitBreakerConfig) : CBState → Prop where
  | init : Reachable cfg initCB
  | allow (now : ℚ) {s : CBState} (h : Reachable cfg s) :
      Reachable cfg (allow_request cfg now s).2
  | success {s : CBState} (h : Reachable cfg s) :
      Reachable cfg (record_success s)
  | failure (now : ℚ) {s : CBState} (h : Reachable cfg s) :
      Reachable cfg (record_failure cfg now s)

lemma applyFailures_cons (cfg : CircuitBreakerConfig) (t : ℚ) (ts : List ℚ)
    (s : CBState) :
    applyFailures cfg (t :: ts) s = applyFailures cfg ts (record_failure cfg t s) := by
  simp [applyFailures]

lemma applyFailures_count (cfg : CircuitBreakerConfig) (ts : List ℚ)
    (s : CBState) :
    (applyFailures cfg ts s).failure_count = s.failure_count + ts.length := by
  induction ts generalizing s with
  | nil => simp [applyFailures]
  | cons t ts ih =>
      rw [applyFailures_cons, ih]
      simp [record_failure]
      omega

lemma applyFailures_last (cfg : CircuitBreakerConfig) (ts : List ℚ)
    (hne : ts ≠ []) (s : CBState) :
    (applyFailures cfg ts s).last_failure = some (ts.getLast hne) := by
  induction ts generalizing s with
  | nil => exact absurd rfl hne
  | cons t ts ih =>
      rw [applyFailures_cons]
      cases ts with
      | nil => simp [applyFailures, record_failure]
      | cons t' ts' =>
          rw [ih (by simp) _]
          simp [List.getLast]

lemma applyFailures_state (cfg : CircuitBreakerConfig) (ts : List ℚ)
    (hne : ts ≠ []) (s : CBState) :
    (applyFailures cfg ts s).state =
      if cfg.failure_threshold ≤ s.failure_count + ts.length then
        CircuitState.opened
      else CircuitState.closed := by
  induction ts generalizing s with
  | nil => exact absurd rfl hne
  | cons t ts ih =>
      rw [applyFailures_cons]
      cases ts with
      | nil => simp [applyFailures, record_failure]
      | cons t' ts' =>
          rw [ih (by simp) _]
          simp only [record_failure, List.length_cons]
          exact if_congr (by omega) rfl rfl

/-- Claim C1: for a breaker with failure threshold `N ≥ 1`, after `N`
consecutive `record_failure` calls (no intervening success), `allow_request`
returns `false` when queried at the time of the last failure, returns `true`
exactly when the elapsed time since the last failure is at least the
configured recovery window, and in that case the state becomes `HalfOpen`. -/
theorem breaker_opens_after_threshold_failures
    (cfg : CircuitBreakerConfig) (s0 : CBState) (ts : List ℚ) (hne : ts ≠ [])
    (hlen : ts.length = cfg.failure_threshold)
    (hrec : 0 < cfg.recovery_time_seconds) :
    (allow_request cfg (ts.getLast hne) (applyFailures cfg ts s0)).1 = false ∧
    (∀ now : ℚ,
      (allow_request cfg now (applyFailures cfg ts s0)).1 = true ↔
        cfg.recovery_time_seconds ≤ now - ts.getLast hne) ∧
    (∀ now : ℚ, cfg.recovery_time_seconds ≤ now - ts.getLast hne →
      (allow_request cfg now (applyFailures cfg ts s0)).2.state =
        CircuitState.halfOpen) := by
  have hstate : (applyFailures cfg ts s0).state = CircuitState.opened := by
    rw [applyFailures_state cfg ts hne s0]
    have : cfg.failure_threshold ≤ s0.failure_count + ts.length := by omega
    simp [this]
  have hlast : (applyFailures cfg ts s0).last_failure = some (ts.getLast hne) :=
    applyFailures_last cfg ts hne s0
  refine ⟨?_, ?_, ?_⟩
  · simp only [allow_request, hstate, hlast]
    have hn : ¬ cfg.recovery_time_seconds ≤ (0 : ℚ) := by linarith
    simp [hn]
  · intro now
    simp only [allow_request, hstate, hlast]
    by_cases h : cfg.recovery_time_seconds ≤ now - ts.getLast hne <;> simp [h]
  · intro now h
    simp only [allow_request, hstate, hlast]
    simp [h]

/-- Witness for C1 at a concrete breaker: threshold 2, recovery window 5,
failures at times 0 and 1. -/
theorem breaker_opens_after_threshold_failures_witness :
    (allow_request ⟨2, 5⟩ ([(0 : ℚ), 1].getLast (by simp))
        (applyFailures ⟨2, 5⟩ [(0 : ℚ), 1] initCB)).1 = false ∧
    (∀ now : ℚ,
      (allow_request ⟨2, 5⟩ now (applyFailures ⟨2, 5⟩ [(0 : ℚ), 1] initCB)).1 = true ↔
        (5 : ℚ) ≤ now - [(0 : ℚ), 1].getLast (by simp)) ∧
    (∀ now : ℚ, (5 : ℚ) ≤ now - [(0 : ℚ), 1].getLast (by simp) →
      (allow_request ⟨2, 5⟩ now (applyFailures ⟨2, 5⟩ [(0 : ℚ), 1] initCB)).2.state =
        CircuitState.halfOpen) :=
  breaker_opens_after_threshold_failures ⟨2, 5⟩ initCB [(0 : ℚ), 1] (by simp)
    (by simp) (by norm_num)

/-- Key reachable-state invariant of the breaker: in `Open` or `HalfOpen` the
failure count has already reached the threshold, and in `Open` the last-failure
timestamp is set. -/
lemma reachable_invariant (cfg : CircuitBreakerConfig) {s : CBState}
    (h : Reachable cfg s) :
    ((s.state = CircuitState.opened ∨ s.state = CircuitState.halfOpen) →
      cfg.failure_threshold ≤ s.failure_count) ∧
    (s.state = CircuitState.opened → ∃ t, s.last_failure = some t) := by
  induction h with
  | init => simp [initCB]
  | allow now h ih =>
      rename_i s
      obtain ⟨ih1, ih2⟩ := ih
      obtain ⟨st, fc, lf⟩ := s
      cases st with
      | closed => exact ⟨ih1, ih2⟩
      | opened =>
          cases lf with
          | none =>
              obtain ⟨t, ht⟩ := ih2 rfl
              exact absurd ht (by simp)
          | some t =>
              by_cases hrec : cfg.recovery_time_seconds ≤ now - t
              · have hres :
                    (allow_request cfg now ⟨CircuitState.opened, fc, some t⟩).2 =
                      ⟨CircuitState.halfOpen, fc, some t⟩ := by
                  simp [allow_request, hrec]
                rw [hres]
                constructor
                · intro _
                  exact ih1 (Or.inl rfl)
                · intro hcontra
                  simp at hcontra
              · have hres :
                    (allow_request cfg now ⟨CircuitState.opened, fc, some t⟩).2 =
                      ⟨CircuitState.opened, fc, some t⟩ := by
                  simp [allow_request, hrec]
                rw [hres]
                exact ⟨ih1, ih2⟩
      | halfOpen => exact ⟨ih1, ih2⟩
  | success h ih => simp [record_success]
  | failure now h ih =>
      rename_i s
      by_cases hth : cfg.failure_threshold ≤ s.failure_count + 1
      · constructor
        · intro _
          exact hth
        · intro _
          exact ⟨now, rfl⟩
      · constructor
        · intro hcontra
          rcases hcontra with hc | hc <;> simp [record_failure, hth] at hc
        · intro hcontra
          simp [record_failure, hth] at hcontra

/-- Claim C2: from any reachable breaker state that is `HalfOpen`, a single
`record_failure` transitions the breaker back to `Open` (no re-accumulation of
`N` failures is needed), because in any reachable `HalfOpen` state the stored
failure count already meets the threshold. -/
theorem halfOpen_failure_reopens (cfg : CircuitBreakerConfig) {s : CBState}
    (h : Reachable cfg s) (hhalf : s.state = CircuitState.halfOpen)
    (now : ℚ) :
    cfg.failure_threshold ≤ s.failure_count ∧
    (record_failure cfg now s).state = CircuitState.opened := by
  have hcount : cfg.failure_threshold ≤ s.failure_count :=
    (reachable_invariant cfg h).1 (Or.inr hhalf)
  refine ⟨hcount, ?_⟩
  have : cfg.failure_threshold ≤ s.failure_count + 1 := by omega
  simp [record_failure, this]

/-- Witness for C2: a breaker with threshold 1 and recovery window 1 reaches a
`HalfOpen` state after one failure at time 0 and an `allow_request` at time 1;
a further failure at time 2 reopens it. -/
theorem halfOpen_failure_reopens_witness :
    (⟨1, 1⟩ : CircuitBreakerConfig).failure_threshold ≤
      ((allow_request ⟨1, 1⟩ 1 (record_failure ⟨1, 1⟩ 0 initCB)).2).failure_count ∧
    (record_failure ⟨1, 1⟩ 2
      ((allow_request ⟨1, 1⟩ 1 (record_failure ⟨1, 1⟩ 0 initCB)).2)).state =
      CircuitState.opened :=
  halfOpen_failure_reopens ⟨1, 1⟩
    (Reachable.allow 1 (Reachable.failure 0 Reachable.init))
    (by norm_num [allow_request, record_failure, initCB]) 2

/-- Claim C9: in every reachable `Open` state the last-failure timestamp is
set, so the `allow_request` branch that returns `false` for a missing
timestamp is unreachable, and every `Open`-state decision is exactly the
comparison of elapsed time against the recovery window. -/
theorem open_state_has_timestamp (cfg : CircuitBreakerConfig) {s : CBState}
    (h : Reachable cfg s) (hopen : s.state = CircuitState.opened) :
    ∃ t, s.last_failure = some t ∧
      ∀ now : ℚ,
        (allow_request cfg now s).1 =
          decide (cfg.recovery_time_seconds ≤ now - t) := by
  obtain ⟨t, ht⟩ := (reachable_invariant cfg h).2 hopen
  refine ⟨t, ht, fun now => ?_⟩
  by_cases hrec : cfg.recovery_time_seconds ≤ now - t <;>
    simp [allow_request, hopen, ht, hrec]

/-- Witness for C9: the state reached by one failure at time 0 on a breaker
with threshold 1 is `Open` and carries timestamp 0. -/
theorem open_state_has_timestamp_witness :
    ∃ t, (record_failure ⟨1, 1⟩ 0 initCB).last_failure = some t ∧
      ∀ now : ℚ,
        (allow_request ⟨1, 1⟩ now (record_failure ⟨1, 1⟩ 0 initCB)).1 =
          decide ((1 : ℚ) ≤ now - t) :=
  open_state_has_timestamp ⟨1, 1⟩ (Reachable.failure 0 Reachable.init)
    (by decide)

/-! ## Model-name normalization (src/app/router.py, `_normalize_model_name`)

The Python code is
`name.strip().lower()`, then `.replace(":free", "")` (which removes every
occurrence, not only a trailing one), then `.replace("_", "-")`, then
`re.sub(r"\s+", "-", ...)`, then `re.sub(r"-+", "-", ...)`.
Strings are modelled as `List Char` (ASCII-faithful for the characters the
routine manipulates).
-/

/-- Python `str.strip()` / regex `\s` whitespace class (ASCII part). -/
def pyIsSpace (c : Char) : Bool :=
  c == ' ' || c == '\t' || c == '\n' || c == '\r' || c == '\x0b' || c == '\x0c'

/-- Python `str.lower()` on ASCII letters. -/
def pyToLower (c : Char) : Char :=
  if 'A' ≤ c && c ≤ 'Z' then Char.ofNat (c.toNat + 32) else c

/-- Python `str.strip()`: drop leading and trailing whitespace. -/
def pyStrip (l : List Char) : List Char :=
  ((l.dropWhile pyIsSpace).reverse.dropWhile pyIsSpace).reverse

/-- Python `str.replace(":free", "")`: removes every (left-to-right,
non-overlapping) occurrence of `":free"`. -/
def removeFree : List Char → List Char
  | ':' :: 'f' :: 'r' :: 'e' :: 'e' :: rest => removeFree rest
  | c :: rest => c :: removeFree rest
  | [] => []

/-- Python `str.replace("_", "-")`, applied characterwise. -/
def u2h (c : Char) : Char := if c == '_' then '-' else c

def isHyphen (c : Char) : Bool := c == '-'

/-- Whitespace-or-underscore, the run class named by the spec sentence. -/
def isWsU (c : Char) : Bool := pyIsSpace c || c == '_'

/-- Whitespace, underscore or hyphen: the combined separator class. -/
def isSep (c : Char) : Bool := pyIsSpace c || c == '_' || c == '-'

/-- Replace every maximal run of `p`-characters by a single `'-'`; the flag
records whether the previous character belonged to the current run.  With
`p := pyIsSpace` this is `re.sub(r"\s+", "-", ·)`; with `p := isHyphen` it is
`re.sub(r"-+", "-", ·)`. -/
def collapseRunGo (p : Char → Bool) : Bool → List Char → List Char
  | _, [] => []
  | inRun, c :: rest =>
    if p c then
      if inRun then collapseRunGo p true rest
      else '-' :: collapseRunGo p true rest
    else c :: collapseRunGo p false rest

def collapseRun (p : Char → Bool) (l : List Char) : List Char :=
  collapseRunGo p false l

/-- Model of `Router._normalize_model_name` (router.py lines 147-154), on `List Char`. -/
def normalizeModelName (l : List Char) : List Char :=
  collapseRun isHyphen (collapseRun pyIsSpace
    (List.map u2h (removeFree (List.map pyToLower (pyStrip l)))))

/-- Model of `Router._normalize_model_name` on `String`. -/
def normalize_model_name (s : String) : String :=
  ⟨normalizeModelName s.data⟩

def freeMarker : List Char := [':', 'f', 'r', 'e', 'e']

/-- Modelled from the claim's words: strip only a TRAILING `":free"` marker. -/
def removeTrailingFree (l : List Char) : List Char :=
  if freeMarker.isSuffixOf l then l.take (l.length - 5) else l

/-- The normalization as the claim literally words it: lower-case, strip a
trailing free-tier marker, collapse whitespace/underscore runs to single
hyphens, collapse repeated hyphens. -/
def normalizeModelNameClaim (l : List Char) : List Char :=
  collapseRun isHyphen (collapseRun isWsU (removeTrailingFree (List.map pyToLower l)))

/-- The amended spec-side pipeline: trim surrounding whitespace, lower-case,
remove EVERY `":free"` occurrence, collapse whitespace/underscore runs to
single hyphens, collapse repeated hyphens. -/
def normalizeModelNameAmended (l : List Char) : List Char :=
  collapseRun isHyphen (collapseRun isWsU (removeFree (List.map pyToLower (pyStrip l))))

lemma collapseRunGo_nil (p : Char → Bool) (b : Bool) :
    collapseRunGo p b [] = [] := rfl

lemma collapseRunGo_cons (p : Char → Bool) (b : Bool) (c : Char)
    (rest : List Char) :
    collapseRunGo p b (c :: rest) =
      if p c then
        if b then collapseRunGo p true rest
        else '-' :: collapseRunGo p true rest
      else c :: collapseRunGo p false rest := rfl

/-- Composing a run-collapse over class `q` (after a characterwise map `f`
that sends no non-separator anywhere and sends separators into `q ∪ {'-'}`)
with a hyphen-run collapse equals one collapse over the combined class. -/
lemma collapse_compose (f : Char → Char) (q : Char → Bool)
    (H1 : ∀ c, isSep c = (q (f c) || f c == '-'))
    (H2 : ∀ c, isSep c = false → f c = c) :
    ∀ l : List Char,
      (collapseRunGo isHyphen false (collapseRunGo q false (l.map f)) =
        collapseRunGo isSep false l) ∧
      (∀ b : Bool,
        collapseRunGo isHyphen true (collapseRunGo q b (l.map f)) =
          collapseRunGo isSep true l) := by
  intro l
  induction l with
  | nil => simp [collapseRunGo_nil]
  | cons c m ih =>
      obtain ⟨ih1, ih2⟩ := ih
      have hhyp : isHyphen '-' = true := by decide
      by_cases hq : q (f c) = true
      · have hsep : isSep c = true := by rw [H1, hq]; simp
        constructor
        · rw [List.map_cons, collapseRunGo_cons, if_pos hq, if_neg (by simp),
            collapseRunGo_cons, if_pos hhyp, if_neg (by simp),
            collapseRunGo_cons, if_pos hsep, if_neg (by simp), ih2 true]
        · intro b
          cases b with
          | false =>
              rw [List.map_cons, collapseRunGo_cons, if_pos hq,
                if_neg (by simp), collapseRunGo_cons, if_pos hhyp,
                if_pos rfl, collapseRunGo_cons, if_pos hsep, if_pos rfl,
                ih2 true]
          | true =>
              rw [List.map_cons, collapseRunGo_cons, if_pos hq, if_pos rfl,
                collapseRunGo_cons, if_pos hsep, if_pos rfl, ih2 true]
      · by_cases hh : f c = '-'
        · have hsep : isSep c = true := by
            rw [H1, hh]
            simp
          have hqd : q (f c) = false := by simpa using hq
          constructor
          · rw [List.map_cons, collapseRunGo_cons, if_neg (by simp [hqd]),
              hh, collapseRunGo_cons, if_pos hhyp, if_neg (by simp),
              collapseRunGo_cons, if_pos hsep, if_neg (by simp), ih2 false]
          · intro b
            rw [List.map_cons, collapseRunGo_cons, if_neg (by simp [hqd]),
              hh, collapseRunGo_cons, if_pos hhyp, if_pos rfl,
              collapseRunGo_cons, if_pos hsep, if_pos rfl, ih2 false]
        · have hqd : q (f c) = false := by simpa using hq
          have hsep : isSep c = false := by
            rw [H1, hqd]
            simp [hh]
          have hfc : f c = c := H2 c hsep
          have hch : isHyphen c = false := by
            simp only [isHyphen]
            have hne : c ≠ '-' := by
              intro he
              rw [hfc, he] at hh
              exact hh rfl
            simp [hne]
          constructor
          · rw [List.map_cons, collapseRunGo_cons, if_neg (by simp [hqd]), hfc,
              collapseRunGo_cons, if_neg (by simp [hch]),
              collapseRunGo_cons, if_neg (by simp [hsep]), ih1]
          · intro b
            rw [List.map_cons, collapseRunGo_cons, if_neg (by simp [hqd]), hfc,
              collapseRunGo_cons, if_neg (by simp [hch]),
              collapseRunGo_cons, if_neg (by simp [hsep]), ih1]

lemma collapse_u2h_spaces (l : List Char) :
    collapseRun isHyphen (collapseRun pyIsSpace (l.map u2h)) =
      collapseRun isSep l := by
  refine (collapse_compose u2h pyIsSpace ?_ ?_ l).1
  · intro c
    by_cases h : c = '_'
    · subst h
      decide
    · have hb : (c == '_') = false := by simp [h]
      simp [isSep, u2h, pyIsSpace, hb]
  · intro c hsep
    have hb : (c == '_') = false := by
      simp only [isSep, Bool.or_eq_false_iff] at hsep
      exact hsep.1.2
    simp [u2h, hb]

lemma collapse_wsu (l : List Char) :
    collapseRun isHyphen (collapseRun isWsU l) = collapseRun isSep l := by
  have h := (collapse_compose id isWsU ?_ ?_ l).1
  · simpa using h
  · intro c
    simp [isSep, isWsU, Bool.or_assoc]
  · intro c _
    rfl

/-- Claim C7 counterexample: on `"a:freeb"` the code's normalization removes
the non-trailing `":free"` and yields `"ab"`, while the claim's
trailing-only rule would leave `"a:freeb"` unchanged. -/
theorem normalize_keeps_no_inner_free_counterexample :
    normalizeModelName ['a', ':', 'f', 'r', 'e', 'e', 'b'] = ['a', 'b'] ∧
    normalizeModelNameClaim ['a', ':', 'f', 'r', 'e', 'e', 'b'] =
      ['a', ':', 'f', 'r', 'e', 'e', 'b'] ∧
    normalizeModelName ['a', ':', 'f', 'r', 'e', 'e', 'b'] ≠
      normalizeModelNameClaim ['a', ':', 'f', 'r', 'e', 'e', 'b'] := by
  decide

/-- Claim C7 (amended): the code's normalization equals the amended spec
pipeline — trim surrounding whitespace, lower-case, remove every `":free"`
substring (not only a trailing one), collapse whitespace/underscore runs to
single hyphens, and collapse repeated hyphens. -/
theorem normalize_model_name_spec (s : String) :
    normalize_model_name s = ⟨normalizeModelNameAmended s.data⟩ := by
  unfold normalize_model_name normalizeModelName normalizeModelNameAmended
  rw [collapse_u2h_spaces, collapse_wsu]

/-! ## Dispatch loop (src/app/router.py, `Router.chat_completion` lines 184-243)

After both cache lookups miss, `chat_completion` narrows the provider list by
the requested model name and then iterates, skipping entries whose breaker
denies the request, absorbing both `ProviderError` and unexpected exceptions
(recording the failure and remembering the error), and returning on the first
success.  One execution trace is embedded by fixing each entry's observed
outcome; the request's mutable `tool_calls` field is threaded as explicit
state. -/

structure ToolCallM where
  id : String
  type : String
  function_name : String
  arguments : String
deriving DecidableEq, Repr

structure ProviderConfigM where
  name : String
  aliases : List String
  canonical_model : Option String
deriving DecidableEq, Repr

/-- Which `except` clause of the dispatch loop catches the exception:
`ProviderError` (router.py line 204) or the defensive catch-all (line 214). -/
inductive FailKind where
  | providerError
  | unexpected
deriving DecidableEq, Repr

/-- Observed outcome of one provider attempt in the trace being modelled:
the breaker denies the request (`skip`), `complete` raises (`fail`), or
`complete` returns `content` after applying `tcEffect` to the payload's
`tool_calls` field (providers may write that field during `complete`). -/
inductive Outcome where
  | skip
  | fail (kind : FailKind) (msg : String)
  | success (content : String)
      (tcEffect : Option (List ToolCallM) → Option (List ToolCallM))

def Outcome.isSkip : Outcome → Bool
  | Outcome.skip => true
  | _ => false

def Outcome.isSuccess : Outcome → Bool
  | Outcome.success _ _ => true
  | _ => false

structure EntryM where
  cfg : ProviderConfigM
  outcome : Outcome

structure ResultM where
  provider_name : String
  content : String
  tool_calls : Option (List ToolCallM)
deriving DecidableEq, Repr

def genericExhaustedMsg : String := "All providers are unavailable (circuits open)"

/-- The provider attempt loop (router.py lines 197-243): returns the dispatch
outcome together with the final value of the request's `tool_calls` field. -/
def runLoop : List EntryM → Option String → Option (List ToolCallM) →
    Except String ResultM × Option (List ToolCallM)
  | [], lastErr, tc => (Except.error (lastErr.getD genericExhaustedMsg), tc)
  | e :: rest, lastErr, tc =>
    match e.outcome with
    | Outcome.skip => runLoop rest lastErr tc
    | Outcome.fail _ msg => runLoop rest (some msg) none
    | Outcome.success content eff =>
        (Except.ok ⟨e.cfg.name, content, eff tc⟩, none)

/-- Python `str.lower()` on `String`. -/
def lowerStr (s : String) : String := ⟨s.data.map pyToLower⟩

/-- The candidate filter predicate (router.py lines 187-192): the normalized
requested name is in the entry's lower-cased alias set, or equals the
normalization of the entry's canonical model (with `None` read as `""`). -/
def matchesModel (normalized : String) (cfg : ProviderConfigM) : Bool :=
  (cfg.aliases.map lowerStr).contains normalized ||
    normalized == normalize_model_name (cfg.canonical_model.getD "")

def candidateProviders (providers : List EntryM) (model : String) :
    List EntryM :=
  providers.filter (fun e => matchesModel (normalize_model_name model) e.cfg)

/-- Provider-sequence selection (router.py lines 184-195): for an empty
requested model the full list; otherwise the candidates, falling back to the
full list when no entry matches. -/
def providerSequence (providers : List EntryM) (model : String) :
    List EntryM :=
  if lowerStr model == "" then providers
  else
    if (candidateProviders providers model).isEmpty then providers
    else candidateProviders providers model

/-- Model of `Router.chat_completion` after both caches miss. -/
def dispatch (providers : List EntryM) (model : String)
    (tc0 : Option (List ToolCallM)) :
    Except String ResultM × Option (List ToolCallM) :=
  runLoop (providerSequence providers model) none tc0

/-- The last failure message recorded by the loop, folded over the entries
actually iterated, starting from `acc`. -/
def lastFailMsgFrom (entries : List EntryM) (acc : Option String) :
    Option String :=
  entries.foldl
    (fun acc e =>
      match e.outcome with
      | Outcome.fail _ m => some m
      | _ => acc)
    acc

def lastFailMsg (entries : List EntryM) : Option String :=
  lastFailMsgFrom entries none

lemma runLoop_error_of_no_success :
    ∀ (entries : List EntryM) (lastErr : Option String)
      (tc : Option (List ToolCallM)),
      (∀ e ∈ entries, e.outcome.isSuccess = false) →
      (runLoop entries lastErr tc).1 =
        Except.error ((lastFailMsgFrom entries lastErr).getD genericExhaustedMsg) := by
  intro entries
  induction entries with
  | nil => intro lastErr tc _; rfl
  | cons e rest ih =>
      intro lastErr tc h
      have he := h e (by simp)
      have hrest : ∀ e' ∈ rest, e'.outcome.isSuccess = false :=
        fun e' he' => h e' (by simp [he'])
      cases ho : e.outcome with
      | skip =>
          simp only [runLoop, ho, lastFailMsgFrom, List.foldl_cons]
          exact ih lastErr tc hrest
      | fail k m =>
          simp only [runLoop, ho, lastFailMsgFrom, List.foldl_cons]
          exact ih (some m) none hrest
      | success content eff =>
          rw [ho] at he
          simp [Outcome.isSuccess] at he

lemma runLoop_ok_of_success :
    ∀ (entries : List EntryM) (lastErr : Option String)
      (tc : Option (List ToolCallM)),
      (∃ e ∈ entries, e.outcome.isSuccess = true) →
      ∃ r, (runLoop entries lastErr tc).1 = Except.ok r := by
  intro entries
  induction entries with
  | nil =>
      intro lastErr tc h
      simp at h
  | cons e rest ih =>
      intro lastErr tc h
      cases ho : e.outcome with
      | skip =>
          simp only [runLoop, ho]
          refine ih lastErr tc ?_
          obtain ⟨e', he', hsucc⟩ := h
          rcases List.mem_cons.mp he' with rfl | hmem
          · rw [ho] at hsucc; simp [Outcome.isSuccess] at hsucc
          · exact ⟨e', hmem, hsucc⟩
      | fail k m =>
          simp only [runLoop, ho]
          refine ih (some m) none ?_
          obtain ⟨e', he', hsucc⟩ := h
          rcases List.mem_cons.mp he' with rfl | hmem
          · rw [ho] at hsucc; simp [Outcome.isSuccess] at hsucc
          · exact ⟨e', hmem, hsucc⟩
      | success content eff =>
          exact ⟨⟨e.cfg.name, content, eff tc⟩, by simp [runLoop, ho]⟩

lemma runLoop_tc_of_none :
    ∀ (entries : List EntryM) (lastErr : Option String),
      (runLoop entries lastErr none).2 = none := by
  intro entries
  induction entries with
  | nil => intro lastErr; rfl
  | cons e rest ih =>
      intro lastErr
      cases ho : e.outcome with
      | skip => simp only [runLoop, ho]; exact ih lastErr
      | fail k m => simp only [runLoop, ho]; exact ih (some m)
      | success content eff => simp [runLoop, ho]

lemma runLoop_tc_none :
    ∀ (entries : List EntryM) (lastErr : Option String)
      (tc : Option (List ToolCallM)),
      (∃ e ∈ entries, e.outcome.isSkip = false) →
      (runLoop entries lastErr tc).2 = none := by
  intro entries
  induction entries with
  | nil =>
      intro lastErr tc h
      simp at h
  | cons e rest ih =>
      intro lastErr tc h
      cases ho : e.outcome with
      | skip =>
          simp only [runLoop, ho]
          refine ih lastErr tc ?_
          obtain ⟨e', he', hskip⟩ := h
          rcases List.mem_cons.mp he' with rfl | hmem
          · rw [ho] at hskip; simp [Outcome.isSkip] at hskip
          · exact ⟨e', hmem, hskip⟩
      | fail k m =>
          simp only [runLoop, ho]
          exact runLoop_tc_of_none rest (some m)
      | success content eff => simp [runLoop, ho]

/-- Re-classify an unexpected-exception failure as a `ProviderError` failure;
the spec says the two are handled identically. -/
def eraseFailKind (e : EntryM) : EntryM :=
  match e.outcome with
  | Outcome.fail _ m => ⟨e.cfg, Outcome.fail FailKind.providerError m⟩
  | _ => e

lemma eraseFailKind_cfg (e : EntryM) : (eraseFailKind e).cfg = e.cfg := by
  cases h : e.outcome <;> simp [eraseFailKind, h]

lemma runLoop_eraseFailKind :
    ∀ (entries : List EntryM) (lastErr : Option String)
      (tc : Option (List ToolCallM)),
      runLoop (entries.map eraseFailKind) lastErr tc =
        runLoop entries lastErr tc := by
  intro entries
  induction entries with
  | nil => intro lastErr tc; rfl
  | cons e rest ih =>
      intro lastErr tc
      cases ho : e.outcome with
      | skip =>
          simp only [List.map_cons, runLoop, eraseFailKind, ho]
          exact ih lastErr tc
      | fail k m =>
          simp only [List.map_cons, runLoop, eraseFailKind, ho]
          exact ih (some m) none
      | success content eff =>
          simp [List.map_cons, runLoop, eraseFailKind, ho]

lemma providerSequence_map_erase (providers : List EntryM) (model : String) :
    providerSequence (providers.map eraseFailKind) model =
      (providerSequence providers model).map eraseFailKind := by
  have hfilter :
      candidateProviders (providers.map eraseFailKind) model =
        (candidateProviders providers model).map eraseFailKind := by
    unfold candidateProviders
    rw [List.filter_map]
    congr 1
    exact List.filter_congr fun e _ => by
      simp [Function.comp, eraseFailKind_cfg]
  unfold providerSequence
  rw [hfilter]
  by_cases hm : lowerStr model == ""
  · simp [hm]
  · simp only [hm]
    by_cases hc : (candidateProviders providers model).isEmpty
    · rw [List.isEmpty_iff] at hc
      simp [hc]
    · rw [List.isEmpty_iff] at hc
      have hc' : ¬ ((candidateProviders providers model).map eraseFailKind).isEmpty := by
        rw [List.isEmpty_iff]
        simpa using hc
      rw [List.isEmpty_iff] at hc'
      simp [hc, hc']

def Outcome.isFail : Outcome → Bool
  | Outcome.fail _ _ => true
  | _ => false

/-- The message an outcome records as `last_error`, if any. -/
def failMsg : Outcome → Option String
  | Outcome.fail _ m => some m
  | _ => none

lemma lowerStr_ne_empty (s : String) (h : s ≠ "") :
    (lowerStr s == "") = false := by
  rw [beq_eq_false_iff_ne]
  intro he
  apply h
  obtain ⟨d⟩ := s
  have hd : d.map pyToLower = [] := congrArg String.data he
  have hnil : d = [] := List.map_eq_nil_iff.mp hd
  rw [hnil]

lemma lastFailMsgFrom_eq :
    ∀ (entries : List EntryM) (acc : Option String),
      lastFailMsgFrom entries acc =
        Option.or (entries.reverse.findSome? (fun e => failMsg e.outcome)) acc := by
  intro entries
  induction entries with
  | nil => intro acc; rfl
  | cons e rest ih =>
      intro acc
      have hstep :
          lastFailMsgFrom (e :: rest) acc =
            lastFailMsgFrom rest (Option.or (failMsg e.outcome) acc) := by
        simp only [lastFailMsgFrom, List.foldl_cons]
        cases ho : e.outcome <;> simp [failMsg, Option.or]
      rw [hstep, ih]
      rw [List.reverse_cons, List.findSome?_append]
      cases hfind : rest.reverse.findSome? (fun e => failMsg e.outcome) <;>
        cases hmsg : failMsg e.outcome <;> simp [Option.or, List.findSome?, hmsg]

/-- Claim C3: with a non-empty requested model name, the candidate set is
exactly the filter of configured entries by alias/canonical-model match on the
normalized name; a non-empty candidate set alone is iterated (so if all of its
members fail, the dispatch fails even though non-matching providers exist),
and an empty candidate set falls back to the full provider list. -/
theorem alias_narrowing (providers : List EntryM) (m : String) (hm : m ≠ "")
    (tc0 : Option (List ToolCallM)) :
    (candidateProviders providers m =
      providers.filter (fun e => matchesModel (normalize_model_name m) e.cfg)) ∧
    (candidateProviders providers m ≠ [] →
      providerSequence providers m = candidateProviders providers m) ∧
    (candidateProviders providers m = [] →
      providerSequence providers m = providers) ∧
    (candidateProviders providers m ≠ [] →
      (∀ e ∈ candidateProviders providers m, e.outcome.isSuccess = false) →
      (dispatch providers m tc0).1 =
        Except.error ((lastFailMsg (candidateProviders providers m)).getD
          genericExhaustedMsg)) := by
  have hlow := lowerStr_ne_empty m hm
  have hseq : ∀ hne : candidateProviders providers m ≠ [],
      providerSequence providers m = candidateProviders providers m := by
    intro hne
    have hF : (candidateProviders providers m).isEmpty = false := by
      cases hE : (candidateProviders providers m).isEmpty
      · rfl
      · exact absurd (List.isEmpty_iff.mp hE) hne
    simp [providerSequence, hlow, hF]
  refine ⟨rfl, hseq, ?_, ?_⟩
  · intro hnil
    simp [providerSequence, hlow, hnil]
  · intro hne hall
    unfold dispatch
    rw [hseq hne]
    exact runLoop_error_of_no_success _ none tc0 hall

def demoGood : EntryM :=
  ⟨⟨"A", [], some "other-model"⟩, Outcome.success "answer" id⟩

def demoAliasFail : EntryM :=
  ⟨⟨"C", ["special"], none⟩, Outcome.fail FailKind.providerError "boom"⟩

def demoProviders : List EntryM := [demoGood, demoAliasFail]

/-- Witness for C3: provider `C` matches alias `"special"`, provider `A`
would succeed but is not a candidate; `C`'s failure exhausts the dispatch. -/
theorem alias_narrowing_witness :
    (candidateProviders demoProviders "special" =
      demoProviders.filter
        (fun e => matchesModel (normalize_model_name "special") e.cfg)) ∧
    (candidateProviders demoProviders "special" ≠ [] →
      providerSequence demoProviders "special" =
        candidateProviders demoProviders "special") ∧
    (candidateProviders demoProviders "special" = [] →
      providerSequence demoProviders "special" = demoProviders) ∧
    (candidateProviders demoProviders "special" ≠ [] →
      (∀ e ∈ candidateProviders demoProviders "special",
        e.outcome.isSuccess = false) →
      (dispatch demoProviders "special" none).1 =
        Except.error ((lastFailMsg (candidateProviders demoProviders "special")).getD
          genericExhaustedMsg)) :=
  alias_narrowing demoProviders "special" (by decide) none

/-- Claim C8: on a double cache miss, the dispatch succeeds exactly when some
iterated entry succeeds (otherwise `NoAvailableProvider` is raised); when no
entry succeeds the raised error carries the last recorded failure message,
with the generic all-circuits-open message when no failure was recorded; the
recorded message is that of the last failing entry; and reclassifying every
unexpected-exception failure as a `ProviderError` leaves the dispatch result
unchanged (both are absorbed identically and trigger failover). -/
theorem dispatch_error_taxonomy (providers : List EntryM) (model : String)
    (tc0 : Option (List ToolCallM)) :
    ((∃ r, (dispatch providers model tc0).1 = Except.ok r) ↔
      (∃ e ∈ providerSequence providers model, e.outcome.isSuccess = true)) ∧
    ((∀ e ∈ providerSequence providers model, e.outcome.isSuccess = false) →
      (dispatch providers model tc0).1 =
        Except.error ((lastFailMsg (providerSequence providers model)).getD
          genericExhaustedMsg)) ∧
    (lastFailMsg (providerSequence providers model) =
      (providerSequence providers model).reverse.findSome?
        (fun e => failMsg e.outcome)) ∧
    dispatch (providers.map eraseFailKind) model tc0 =
      dispatch providers model tc0 := by
  refine ⟨⟨?_, ?_⟩, ?_, ?_, ?_⟩
  · intro hok
    by_contra hno
    push_neg at hno
    have hall : ∀ e ∈ providerSequence providers model,
        e.outcome.isSuccess = false := by
      intro e he
      have := hno e he
      simpa using this
    obtain ⟨r, hr⟩ := hok
    have herr := runLoop_error_of_no_success
      (providerSequence providers model) none tc0 hall
    unfold dispatch at hr
    rw [herr] at hr
    exact Except.noConfusion hr
  · intro hex
    exact runLoop_ok_of_success _ none tc0 hex
  · intro hall
    exact runLoop_error_of_no_success _ none tc0 hall
  · rw [lastFailMsg, lastFailMsgFrom_eq]
    cases hfind : (providerSequence providers model).reverse.findSome?
        (fun e => failMsg e.outcome) <;> simp [Option.or]
  · unfold dispatch
    rw [providerSequence_map_erase, runLoop_eraseFailKind]

def demoSkipEntry : EntryM := ⟨⟨"skip-prov", [], none⟩, Outcome.skip⟩

def demoFail1 : EntryM :=
  ⟨⟨"fail-one", [], none⟩, Outcome.fail FailKind.providerError "e1"⟩

def demoFail2 : EntryM :=
  ⟨⟨"fail-two", [], none⟩, Outcome.fail FailKind.unexpected "e2"⟩

def demoFailList : List EntryM := [demoSkipEntry, demoFail1, demoFail2]

/-- Witness for C8: a skipped entry followed by two failures raises the last
failure's message (`"e2"`), even though the second failure was an unexpected
exception rather than a `ProviderError`. -/
theorem dispatch_error_taxonomy_witness :
    (dispatch demoFailList "" none).1 = Except.error "e2" := by
  have hseq : providerSequence demoFailList "" = demoFailList := rfl
  refine Eq.trans ((dispatch_error_taxonomy demoFailList "" none).2.1 ?_) ?_
  · intro e he
    rw [hseq] at he
    simp only [demoFailList, List.mem_cons, List.not_mem_nil, or_false] at he
    rcases he with rfl | rfl | rfl <;> rfl
  · rw [hseq]
    rfl

/-- Claim C10: whenever the provider sequence contains at least one entry the
breaker does not skip (so at least one attempt executes before the dispatch
returns or raises), the request's `tool_calls` field is `None` when control
returns to the caller, whatever value it held before. -/
theorem dispatch_resets_tool_calls (providers : List EntryM) (model : String)
    (tc0 : Option (List ToolCallM))
    (h : ∃ e ∈ providerSequence providers model, e.outcome.isSkip = false) :
    (dispatch providers model tc0).2 = none :=
  runLoop_tc_none _ none tc0 h

/-- Witness for C10: a request arriving with a non-`None` `tool_calls` field
leaves the dispatch with the field reset to `None` after a failed attempt. -/
theorem dispatch_resets_tool_calls_witness :
    (dispatch demoFailList ""
      (some [⟨"id1", "function", "f", "args"⟩])).2 = none := by
  refine dispatch_resets_tool_calls demoFailList "" _ ⟨demoFail1, ?_, rfl⟩
  rw [show providerSequence demoFailList "" = demoFailList from rfl]
  simp [demoFailList]

/-! ## Semantic cache (src/app/semantic_cache.py)

Entries are (embedding, provider_name, content, tool_calls) records stored in
insertion order.  `get` folds over the entries keeping the best similarity
seen (initialized to the threshold) and updates the running best whenever the
current similarity is `≥` the running best; `add` appends and pops the oldest
entry when the store exceeds its capacity.  Embeddings are modelled as
rational vectors; cosine similarity of the pre-normalized vectors is the dot
product, as in the code. -/

def dot (xs ys : List ℚ) : ℚ := (List.zipWith (fun a b => a * b) xs ys).sum

structure SCEntry where
  embedding : List ℚ
  provider_name : String
  content : String
  tool_calls : Option (List ToolCallM)
deriving DecidableEq, Repr

structure SCResult where
  provider_name : String
  content : String
  tool_calls : Option (List ToolCallM)
deriving DecidableEq, Repr

/-- The dict `SemanticCache.get` builds from the best entry (lines 74-78). -/
def SCEntry.toResult (e : SCEntry) : SCResult :=
  ⟨e.provider_name, e.content, e.tool_calls⟩

/-- One iteration of the `get` scan (semantic_cache.py lines 65-69): the
running best is replaced whenever the similarity is `≥` the running best. -/
def scanStep (q : List ℚ) (acc : Option SCEntry × ℚ) (e : SCEntry) :
    Option SCEntry × ℚ :=
  if acc.2 ≤ dot q e.embedding then (some e, dot q e.embedding) else acc

/-- Model of `SemanticCache.get` (semantic_cache.py lines 55-78). -/
def scGet (entries : List SCEntry) (q : List ℚ) (threshold : ℚ) :
    Option SCResult :=
  if threshold ≤ 0 then none
  else
    match (entries.foldl (scanStep q) (none, threshold)).1 with
    | none => none
    | some e => some e.toResult

/-- Model of `SemanticCache.add` (semantic_cache.py lines 80-94): append, then pop the
oldest entry if the store now exceeds its capacity. -/
def scAdd (maxEntries : Nat) (entries : List SCEntry) (e : SCEntry) :
    List SCEntry :=
  if maxEntries < (entries ++ [e]).length then (entries ++ [e]).tail
  else entries ++ [e]

/-- A sequence of `add` calls starting from the empty store. -/
def scAddAll (maxEntries : Nat) (es : List SCEntry) : List SCEntry :=
  es.foldl (scAdd maxEntries) []

/-- Invariant of the `get` scan after processing the prefix `seen`: either no
entry reached the threshold yet, or the accumulator holds the last entry
attaining the running maximum. -/
def ScanInv (q : List ℚ) (t : ℚ) (seen : List SCEntry)
    (acc : Option SCEntry × ℚ) : Prop :=
  (acc = (none, t) ∧ ∀ e ∈ seen, dot q e.embedding < t) ∨
  (∃ b pre post, acc = (some b, dot q b.embedding) ∧ seen = pre ++ b :: post ∧
    t ≤ dot q b.embedding ∧
    (∀ e ∈ pre, dot q e.embedding ≤ dot q b.embedding) ∧
    (∀ e ∈ post, dot q e.embedding < dot q b.embedding))

lemma scanInv_step (q : List ℚ) (t : ℚ) (seen : List SCEntry)
    (acc : Option SCEntry × ℚ) (e : SCEntry) (h : ScanInv q t seen acc) :
    ScanInv q t (seen ++ [e]) (scanStep q acc e) := by
  rcases h with ⟨hacc, hall⟩ | ⟨b, pre, post, hacc, hseen, hbt, hpre, hpost⟩
  · subst hacc
    by_cases hle : t ≤ dot q e.embedding
    · refine Or.inr ⟨e, seen, [], ?_, rfl, hle, ?_, ?_⟩
      · simp [scanStep, hle]
      · intro x hx
        exact le_trans (le_of_lt (hall x hx)) hle
      · intro x hx
        simp at hx
    · refine Or.inl ⟨?_, ?_⟩
      · simp [scanStep, hle]
      · intro x hx
        rcases List.mem_append.mp hx with hx | hx
        · exact hall x hx
        · rw [List.mem_singleton.mp hx]
          exact lt_of_not_le hle
  · subst hacc
    by_cases hle : dot q b.embedding ≤ dot q e.embedding
    · refine Or.inr ⟨e, seen, [], ?_, rfl, le_trans hbt hle, ?_, ?_⟩
      · simp [scanStep, hle]
      · intro x hx
        rw [hseen] at hx
        rcases List.mem_append.mp hx with hx | hx
        · exact le_trans (hpre x hx) hle
        · rcases List.mem_cons.mp hx with rfl | hx
          · exact hle
          · exact le_trans (le_of_lt (hpost x hx)) hle
      · intro x hx
        simp at hx
    · refine Or.inr ⟨b, pre, post ++ [e], ?_, ?_, hbt, hpre, ?_⟩
      · simp [scanStep, hle]
      · rw [hseen, List.append_assoc, List.cons_append]
      · intro x hx
        rcases List.mem_append.mp hx with hx | hx
        · exact hpost x hx
        · rw [List.mem_singleton.mp hx]
          exact lt_of_not_le hle

lemma scanInv_fold (q : List ℚ) (t : ℚ) :
    ∀ (l seen : List SCEntry) (acc : Option SCEntry × ℚ),
      ScanInv q t seen acc →
      ScanInv q t (seen ++ l) (l.foldl (scanStep q) acc) := by
  intro l
  induction l with
  | nil => intro seen acc h; simpa using h
  | cons e l ih =>
      intro seen acc h
      have h' := scanInv_step q t seen acc e h
      have := ih (seen ++ [e]) (scanStep q acc e) h'
      simpa [List.append_assoc] using this

lemma scanInv_entries (q : List ℚ) (t : ℚ) (entries : List SCEntry) :
    ScanInv q t entries (entries.foldl (scanStep q) (none, t)) := by
  have h0 : ScanInv q t [] (none, t) := Or.inl ⟨rfl, by simp⟩
  simpa using scanInv_fold q t entries [] (none, t) h0

lemma scGet_mem (entries : List SCEntry) (q : List ℚ) (t : ℚ)
    (r : SCResult) (h : scGet entries q t = some r) :
    ∃ b ∈ entries, r = SCEntry.toResult b := by
  unfold scGet at h
  by_cases ht : t ≤ 0
  · simp [ht] at h
  · rw [if_neg ht] at h
    rcases scanInv_entries q t entries with ⟨hacc, _⟩ |
        ⟨b, pre, post, hacc, hseen, _, _, _⟩
    · rw [congrArg Prod.fst hacc] at h
      exact Option.noConfusion h
    · rw [congrArg Prod.fst hacc] at h
      refine ⟨b, ?_, ?_⟩
      · rw [hseen]
        exact List.mem_append.mpr (Or.inr (List.mem_cons_self b post))
      · exact (Option.some.injEq _ _ ▸ h).symm

/-- Claim C4 (amended): for threshold `t > 0`, `get` returns `None` exactly
when no stored entry scores `≥ t`; otherwise it returns an entry attaining the
maximum score, that score is `≥ t`, and on ties the LATER-stored entry wins
(the running best is replaced whenever a score is `≥` the current best, so
every entry after the returned one scores strictly lower, while entries before
it score at most equal). -/
theorem semantic_get_best (entries : List SCEntry) (q : List ℚ) (t : ℚ)
    (ht : 0 < t) :
    (scGet entries q t = none → ∀ e ∈ entries, dot q e.embedding < t) ∧
    (∀ r, scGet entries q t = some r →
      ∃ pre b post, entries = pre ++ b :: post ∧ r = SCEntry.toResult b ∧
        t ≤ dot q b.embedding ∧
        (∀ e ∈ pre, dot q e.embedding ≤ dot q b.embedding) ∧
        (∀ e ∈ post, dot q e.embedding < dot q b.embedding)) := by
  have htn : ¬ t ≤ 0 := not_le.mpr ht
  rcases scanInv_entries q t entries with ⟨hacc, hall⟩ |
      ⟨b, pre, post, hacc, hseen, hbt, hpre, hpost⟩
  · constructor
    · intro _
      exact hall
    · intro r hr
      unfold scGet at hr
      rw [if_neg htn, congrArg Prod.fst hacc] at hr
      exact Option.noConfusion hr
  · constructor
    · intro hr
      unfold scGet at hr
      rw [if_neg htn, congrArg Prod.fst hacc] at hr
      exact Option.noConfusion hr
    · intro r hr
      unfold scGet at hr
      rw [if_neg htn, congrArg Prod.fst hacc] at hr
      refine ⟨pre, b, post, hseen, ?_, hbt, hpre, hpost⟩
      exact (Option.some.injEq _ _ ▸ hr).symm

def scE1 : SCEntry := ⟨[1, 0], "p1", "c1", none⟩

def scE2 : SCEntry := ⟨[0, 1], "p2", "c2", none⟩

/-- Witness for C4 at a concrete store: entries `[scE1, scE2]`, query `[1, 0]`
and threshold `1`. -/
theorem semantic_get_best_witness :
    (scGet [scE1, scE2] [1, 0] 1 = none →
      ∀ e ∈ [scE1, scE2], dot [1, 0] e.embedding < 1) ∧
    (∀ r, scGet [scE1, scE2] [1, 0] 1 = some r →
      ∃ pre b post, [scE1, scE2] = pre ++ b :: post ∧
        r = SCEntry.toResult b ∧
        (1 : ℚ) ≤ dot [1, 0] b.embedding ∧
        (∀ e ∈ pre, dot [1, 0] e.embedding ≤ dot [1, 0] b.embedding) ∧
        (∀ e ∈ post, dot [1, 0] e.embedding < dot [1, 0] b.embedding)) :=
  semantic_get_best [scE1, scE2] [1, 0] 1 (by norm_num)

def scTieE1 : SCEntry := ⟨[1], "p1", "c1", none⟩

def scTieE2 : SCEntry := ⟨[1], "p2", "c2", none⟩

/-- Claim C4 counterexample: two stored entries tie on the best score (both
score `1` against the query, threshold `1 > 0`), and `get` returns the
LATER-stored entry, not the earlier one: the running best is replaced on
`≥`, not only on a strictly higher score. -/
theorem semantic_get_tie_counterexample :
    dot [1] scTieE1.embedding = dot [1] scTieE2.embedding ∧
    scGet [scTieE1, scTieE2] [1] 1 = some (SCEntry.toResult scTieE2) ∧
    SCEntry.toResult scTieE1 ≠ SCEntry.toResult scTieE2 := by
  refine ⟨rfl, ?_, by simp [SCEntry.toResult, scTieE1, scTieE2]⟩
  have hd : dot [1] [1] = 1 := by
    simp [dot]
  have h1 : scanStep [1] (none, 1) scTieE1 = (some scTieE1, 1) := by
    simp [scanStep, scTieE1, hd]
  have h2 : scanStep [1] (some scTieE1, 1) scTieE2 = (some scTieE2, 1) := by
    simp [scanStep, scTieE2, hd]
  unfold scGet
  rw [if_neg (by norm_num), List.foldl_cons, h1, List.foldl_cons, h2,
    List.foldl_nil]

lemma scAdd_length_le (maxEntries : Nat) (entries : List SCEntry)
    (e : SCEntry) (h : entries.length ≤ maxEntries) :
    (scAdd maxEntries entries e).length ≤ maxEntries := by
  unfold scAdd
  by_cases hlt : maxEntries < (entries ++ [e]).length
  · rw [if_pos hlt]
    simp at hlt ⊢
    omega
  · rw [if_neg hlt]
    simp at hlt ⊢
    omega

lemma scAddAll_length_le (maxEntries : Nat) :
    ∀ (es : List SCEntry) (acc : List SCEntry),
      acc.length ≤ maxEntries →
      (es.foldl (scAdd maxEntries) acc).length ≤ maxEntries := by
  intro es
  induction es with
  | nil => intro acc h; simpa using h
  | cons e es ih =>
      intro acc h
      rw [List.foldl_cons]
      exact ih (scAdd maxEntries acc e) (scAdd_length_le maxEntries acc e h)

lemma scAddAll_no_evict (maxEntries : Nat) :
    ∀ (es acc : List SCEntry),
      acc.length + es.length ≤ maxEntries →
      es.foldl (scAdd maxEntries) acc = acc ++ es := by
  intro es
  induction es with
  | nil => intro acc _; simp
  | cons e es ih =>
      intro acc h
      rw [List.foldl_cons]
      have hstep : scAdd maxEntries acc e = acc ++ [e] := by
        unfold scAdd
        rw [if_neg]
        simp at h ⊢
        omega
      rw [hstep, ih (acc ++ [e]) (by simp at h ⊢; omega)]
      simp

/-- Claim C5: the store never exceeds its capacity; after inserting
`maxEntries + 1` entries the store is exactly the last `maxEntries` of them
(the first-inserted entry alone was evicted, FIFO), and any `get` against the
resulting store can only return one of the surviving entries — the evicted
first entry is not retrievable by any query, including its own exact
embedding. -/
theorem semantic_cache_fifo_eviction (maxEntries : Nat) (es : List SCEntry)
    (h : es.length = maxEntries + 1) :
    (∀ es' : List SCEntry, (scAddAll maxEntries es').length ≤ maxEntries) ∧
    scAddAll maxEntries es = es.tail ∧
    (∀ (q : List ℚ) (t : ℚ) (r : SCResult),
      scGet (scAddAll maxEntries es) q t = some r →
      ∃ b ∈ es.tail, r = SCEntry.toResult b) := by
  have hne : es ≠ [] := by
    intro he
    rw [he] at h
    simp at h
  have hsplit : es.dropLast ++ [es.getLast hne] = es :=
    List.dropLast_append_getLast hne
  have hdrop : es.dropLast.length = maxEntries := by
    rw [List.length_dropLast, h]
    omega
  have hfold : scAddAll maxEntries es = es.tail := by
    unfold scAddAll
    rw [← hsplit, List.foldl_append,
      scAddAll_no_evict maxEntries es.dropLast [] (by simp [hdrop]),
      List.nil_append, List.foldl_cons, List.foldl_nil]
    unfold scAdd
    rw [if_pos]
    rw [hsplit, h]
    omega
  refine ⟨?_, hfold, ?_⟩
  · intro es'
    exact scAddAll_length_le maxEntries es' [] (by simp)
  · intro q t r hr
    rw [hfold] at hr
    exact scGet_mem es.tail q t r hr

/-- Witness for C5: capacity 1, two inserted entries; only the second
survives. -/
theorem semantic_cache_fifo_eviction_witness :
    (∀ es' : List SCEntry, (scAddAll 1 es').length ≤ 1) ∧
    scAddAll 1 [scE1, scE2] = [scE1, scE2].tail ∧
    (∀ (q : List ℚ) (t : ℚ) (r : SCResult),
      scGet (scAddAll 1 [scE1, scE2]) q t = some r →
      ∃ b ∈ [scE1, scE2].tail, r = SCEntry.toResult b) :=
  semantic_cache_fifo_eviction 1 [scE1, scE2] rfl

/-! ## Exact TTL cache (src/app/router.py, `_cache_get` / `_cache_set`)

The exact cache maps a key string to a `(ProviderResult, expires_at)` pair.
Both `set` and `get` build a fresh `ProviderResult` (deep-copying the tool
calls), so the caller's object, the stored object and the returned object are
three distinct Python objects.  Object identity is modelled by tagging every
result with an allocation id drawn from a monotone counter `nextId`; ids below
`nextId` are the previously allocated objects. -/

structure ResultObj where
  objId : Nat
  provider_name : String
  content : String
  tool_calls : Option (List ToolCallM)
deriving DecidableEq, Repr

structure RouterCache where
  store : String → Option (ResultObj × ℚ)
  nextId : Nat

/-- The tool-call copy `[tc.copy(deep=True) for tc in tc_list] if tc_list
else None` (router.py lines 96 and 107): Python truthiness stores an empty
list as `None`. -/
def copyToolCalls : Option (List ToolCallM) → Option (List ToolCallM)
  | some (tc :: tcs) => some (tc :: tcs)
  | _ => none

/-- Model of `Router._cache_set` (router.py lines 99-110): no-op when TTL is disabled;
otherwise stores a fresh copy with expiry `now + ttl`, overwriting the key. -/
def cacheSet (ttl now : ℚ) (key : String) (r : ResultObj)
    (st : RouterCache) : RouterCache :=
  if ttl ≤ 0 then st
  else
    { store := fun k =>
        if k = key then
          some (⟨st.nextId, r.provider_name, r.content,
            copyToolCalls r.tool_calls⟩, now + ttl)
        else st.store k
      nextId := st.nextId + 1 }

/-- Model of `Router._cache_get` (router.py lines 81-97): `None` when TTL is disabled
or the entry is absent; an entry whose expiry is strictly in the past is
deleted and reported absent; otherwise a fresh copy is returned. -/
def cacheGet (ttl now : ℚ) (key : String) (st : RouterCache) :
    Option ResultObj × RouterCache :=
  if ttl ≤ 0 then (none, st)
  else
    match st.store key with
    | none => (none, st)
    | some (res, expiresAt) =>
        if expiresAt < now then
          (none, { st with store := fun k => if k = key then none else st.store k })
        else
          (some ⟨st.nextId, res.provider_name, res.content,
            copyToolCalls res.tool_calls⟩,
            { st with nextId := st.nextId + 1 })

lemma copyToolCalls_eq (o : Option (List ToolCallM)) (h : o ≠ some []) :
    copyToolCalls o = o := by
  match o with
  | none => rfl
  | some [] => exact absurd rfl h
  | some (tc :: tcs) => rfl

def demoResult : ResultObj := ⟨0, "prov", "hello", none⟩

def demoCache : RouterCache := ⟨fun _ => none, 1⟩

/-- Claim C6 counterexample: with TTL 1, `set` at time 0 and `get` at time 1 —
so the elapsed time since the set is (at least) the TTL — the entry is still
returned, not absent: the code expires an entry only when `expires_at < now`,
i.e. strictly more than the TTL after the set. -/
theorem exact_cache_ttl_boundary_counterexample :
    (1 : ℚ) - 0 ≥ 1 ∧
    ((cacheGet 1 1 "k" (cacheSet 1 0 "k" demoResult demoCache)).1).isSome
      = true := by
  have h10 : ¬ (1 : ℚ) ≤ 0 := by norm_num
  have hsetStore : (cacheSet 1 0 "k" demoResult demoCache).store "k" =
      some (⟨1, "prov", "hello", none⟩, 0 + 1) := by
    simp [cacheSet, demoResult, demoCache, copyToolCalls, h10]
  constructor
  · norm_num
  · unfold cacheGet
    rw [if_neg h10, hsetStore]
    have hnlt : ¬ ((0 : ℚ) + 1 < 1) := by norm_num
    simp [hnlt]

/-- Claim C6 (amended): with TTL > 0, `set(k, r)` immediately followed by
`get(k)` returns a result equal to `r` in content (provider name, content
text, tool calls — for results whose tool-call field is not Python's empty
list, which truthiness stores as `None`), and the returned object is a fresh
object distinct from both `r` and the stored entry, which is itself distinct
from `r`; `get(k)` reports the entry absent, deleting it on that read, once
STRICTLY more than the TTL has elapsed since the set (at an elapsed time of
exactly the TTL the entry is still returned). -/
theorem exact_cache_roundtrip (ttl t0 : ℚ) (key : String) (r : ResultObj)
    (st : RouterCache) (httl : 0 < ttl) (hfresh : r.objId < st.nextId)
    (htc : r.tool_calls ≠ some []) :
    (∃ out, (cacheGet ttl t0 key (cacheSet ttl t0 key r st)).1 = some out ∧
      out.provider_name = r.provider_name ∧
      out.content = r.content ∧
      out.tool_calls = r.tool_calls ∧
      out.objId ≠ r.objId ∧
      (∀ stored exp,
        (cacheSet ttl t0 key r st).store key = some (stored, exp) →
        out.objId ≠ stored.objId ∧ stored.objId ≠ r.objId)) ∧
    (∀ now : ℚ, ttl < now - t0 →
      (cacheGet ttl now key (cacheSet ttl t0 key r st)).1 = none ∧
      ((cacheGet ttl now key (cacheSet ttl t0 key r st)).2).store key
        = none) := by
  have httl' : ¬ ttl ≤ 0 := not_le.mpr httl
  have hcopy : copyToolCalls r.tool_calls = r.tool_calls :=
    copyToolCalls_eq r.tool_calls htc
  have hsetStore : (cacheSet ttl t0 key r st).store key =
      some (⟨st.nextId, r.provider_name, r.content, r.tool_calls⟩,
        t0 + ttl) := by
    simp [cacheSet, httl', hcopy]
  have hsetId : (cacheSet ttl t0 key r st).nextId = st.nextId + 1 := by
    simp [cacheSet, httl']
  constructor
  · refine ⟨⟨st.nextId + 1, r.provider_name, r.content, r.tool_calls⟩,
      ?_, rfl, rfl, rfl, ?_, ?_⟩
    · unfold cacheGet
      rw [if_neg httl', hsetStore]
      have hnlt : ¬ (t0 + ttl < t0) := by linarith
      simp [hnlt, hsetId, hcopy]
    · intro he
      have h' : st.nextId + 1 = r.objId := he
      omega
    · intro stored exp hstored
      rw [hsetStore] at hstored
      have hpair := Option.some.inj hstored
      have hs : stored = (⟨st.nextId, r.provider_name, r.content,
          r.tool_calls⟩ : ResultObj) := (congrArg Prod.fst hpair).symm
      rw [hs]
      constructor
      · intro he
        have h1 : st.nextId + 1 = st.nextId := he
        omega
      · intro he
        have h2 : st.nextId = r.objId := he
        omega
  · intro now hnow
    have hexp : t0 + ttl < now := by linarith
    constructor
    · unfold cacheGet
      rw [if_neg httl', hsetStore]
      simp [hexp]
    · unfold cacheGet
      rw [if_neg httl', hsetStore]
      simp [hexp]

/-- Witness for C6 at a concrete cache: TTL 1, key `"k"`, a result with
allocation id 0 set at time 0 into a cache whose next id is 1. -/
theorem exact_cache_roundtrip_witness :
    (∃ out, (cacheGet 1 0 "k" (cacheSet 1 0 "k" demoResult demoCache)).1
        = some out ∧
      out.provider_name = demoResult.provider_name ∧
      out.content = demoResult.content ∧
      out.tool_calls = demoResult.tool_calls ∧
      out.objId ≠ demoResult.objId ∧
      (∀ stored exp,
        (cacheSet 1 0 "k" demoResult demoCache).store "k"
          = some (stored, exp) →
        out.objId ≠ stored.objId ∧ stored.objId ≠ demoResult.objId)) ∧
    (∀ now : ℚ, (1 : ℚ) < now - 0 →
      (cacheGet 1 now "k" (cacheSet 1 0 "k" demoResult demoCache)).1
        = none ∧
      ((cacheGet 1 now "k" (cacheSet 1 0 "k" demoResult demoCache)).2).store "k"
        = none) :=
  exact_cache_roundtrip 1 0 "k" demoResult demoCache (by norm_num)
    (by simp [demoResult, demoCache]) (by simp [demoResult])

end LLMRouter
